import Mathlib

/-!
A verification development for a terminal Wordle implementation
(`src/main.rs`).  The program's core — the feedback/scoring function
`provide_feedback`, the hard-mode validator `is_valid_hard_mode_guess`,
the per-round guess loop of `main`, and the persisted `GameState`
statistics — is shallowly embedded below; words are lists of characters,
the interactive input stream is an explicit list of (already trimmed and
upper-cased) candidate guesses, and file contents are explicit values.
Machine integers (`usize`) are modelled as `Nat`: the program only ever
increments small counters, so overflow is immaterial.
-/

set_option maxHeartbeats 1000000

/-- A word, as the Rust code handles it: the character sequence of an
upper-cased string.  The word lists only contain five-letter uppercase
alphabetic words, so a word never contains the sentinel `'_'`. -/
abbrev Word := List Char

/-! ## FeedbackEngine: `provide_feedback` (src/main.rs lines 291-332)

The Rust function builds the feedback string in place.  Pass 1 pushes
`'G'` where `guess[i] == answer[i]` (consuming `answer_chars[i]` by
overwriting it with `'_'`) and a `'_'` placeholder otherwise; pass 2
rewrites each placeholder to `'Y'` (consuming the leftmost remaining
occurrence of the letter in `answer_chars`) or `'R'`.  The `is_tty`
branches differ only in rendering (colour codes instead of `G`/`Y`/`R`);
the non-interactive encoding is embedded.  Indexing `answer_chars[i]`
panics when the guess is longer than the answer; the embedding returns
`none` exactly on that panic. -/

/-- Pass 1 of `provide_feedback`: walk the guess and the answer
positionally; on a match push `'G'` and overwrite the answer slot with
the `'_'` sentinel, otherwise push the `'_'` placeholder and keep the
answer slot.  `none` models the `answer_chars[i]` index panic (guess
longer than answer).  The unscanned tail of the answer is kept, as the
Rust vector keeps it. -/
def pass1 : List Char → List Char → Option (List Char × List Char)
  | [], ans => some ([], ans)
  | _ :: _, [] => none
  | g :: gs, a :: rest =>
    match pass1 gs rest with
    | none => none
    | some (fb, ans) =>
      if a = g then some ('G' :: fb, '_' :: ans) else some ('_' :: fb, a :: ans)

/-- `answer_chars[pos] = '_'` where `pos` is the first index whose
character equals `c` (the `position(..)` call of pass 2). -/
def consume (c : Char) : List Char → List Char
  | [] => []
  | a :: rest => if a = c then '_' :: rest else a :: consume c rest

/-- Pass 2 of `provide_feedback`: each `'_'` placeholder becomes `'Y'`
if the guess letter still occurs in `answer_chars` (consuming the
leftmost such occurrence) and `'R'` otherwise; non-placeholders are kept. -/
def pass2 : List Char → List Char → List Char → List Char
  | [], _, _ => []
  | _ :: _, [], _ => []
  | g :: gs, f :: fs, ans =>
    if f = '_' then
      if g ∈ ans then 'Y' :: pass2 gs fs (consume g ans)
      else 'R' :: pass2 gs fs ans
    else f :: pass2 gs fs ans

/-- `provide_feedback` (non-interactive encoding): `none` models the
index panic, `some fb` the returned feedback string. -/
def provide_feedback (guess answer : List Char) : Option (List Char) :=
  match pass1 guess answer with
  | none => none
  | some (fb, ans) => some (pass2 guess fb ans)

/-! ## The specification-level scoring algorithm (spec section 4.1)

The same two passes, but over a typed verdict array and with a sentinel
(`none`) that can never collide with a letter. -/

/-- Per-position classification of a guess letter against the answer. -/
inductive LetterVerdict
  | Correct
  | Present
  | Absent
deriving DecidableEq, Repr

/-- Spec pass 1: the per-position match marks, and the answer copy with
matched slots consumed (`none`). -/
def specPass1 : List Char → List Char → List Bool × List (Option Char)
  | [], _ => ([], [])
  | _ :: _, [] => ([], [])
  | g :: gs, a :: rest =>
    let p := specPass1 gs rest
    if a = g then (true :: p.1, none :: p.2) else (false :: p.1, some a :: p.2)

/-- Consume the leftmost remaining occurrence of `c` in the answer copy. -/
def specConsume (c : Char) : List (Option Char) → List (Option Char)
  | [] => []
  | a :: rest => if a = some c then none :: rest else a :: specConsume c rest

/-- Spec pass 2: a matched position is `Correct`; an unmatched position
whose letter still occurs in the unconsumed remainder is `Present`
(consuming the leftmost remaining occurrence); otherwise `Absent`. -/
def specPass2 : List Char → List Bool → List (Option Char) → List LetterVerdict
  | [], _, _ => []
  | _ :: _, [], _ => []
  | g :: gs, m :: ms, ans =>
    if m then .Correct :: specPass2 gs ms ans
    else if some g ∈ ans then .Present :: specPass2 gs ms (specConsume g ans)
    else .Absent :: specPass2 gs ms ans

/-- The scoring algorithm of spec section 4.1, as a typed verdict list. -/
def score (guess answer : List Char) : List LetterVerdict :=
  let p := specPass1 guess answer
  specPass2 guess p.1 p.2

/-- The non-interactive rendering of a verdict. -/
def renderVerdict : LetterVerdict → Char
  | .Correct => 'G'
  | .Present => 'Y'
  | .Absent => 'R'

/-- The pass-1 placeholder character for a match mark. -/
def markChar : Bool → Char
  | true => 'G'
  | false => '_'

/-- The concrete answer-copy character for a spec answer-copy slot. -/
def optChar : Option Char → Char
  | none => '_'
  | some a => a

/-- How many positions carry letter `c` and a non-`Absent` verdict. -/
def markedCount (c : Char) : List Char → List LetterVerdict → Nat
  | g :: gs, v :: vs =>
    (if g = c ∧ v ≠ .Absent then 1 else 0) + markedCount c gs vs
  | _, _ => 0

/-- How many positions carry letter `c` and a `true` pass-1 mark. -/
def corrCount (c : Char) : List Char → List Bool → Nat
  | g :: gs, m :: ms => (if g = c ∧ m = true then 1 else 0) + corrCount c gs ms
  | _, _ => 0

/-- How many positions carry letter `c` and a `false` pass-1 mark. -/
def openCount (c : Char) : List Char → List Bool → Nat
  | g :: gs, m :: ms => (if g = c ∧ m = false then 1 else 0) + openCount c gs ms
  | _, _ => 0

/-! ## HardModeValidator (src/main.rs lines 275-289 and 242-251)

`correct_positions` is a five-slot vector initialised to `'_'`
(unpinned); `present_letters` is a `HashSet<char>`, modelled as a
`Finset Char` (the program only inserts into it and conjunctively
iterates over it, so the hash order is immaterial). -/

/-- `is_valid_hard_mode_guess`: reject when a pinned slot disagrees with
the guess letter at that position, or when a present letter occurs
nowhere in the guess.  The Rust loop walks `guess.chars().enumerate()`
against `correct_positions[i]`; in the program both always have length
5, which the positional `zip` mirrors. -/
def is_valid_hard_mode_guess (guess correct_positions : List Char)
    (present_letters : Finset Char) : Bool :=
  ((guess.zip correct_positions).all fun p => p.2 == '_' || p.2 == p.1) &&
    decide (∀ c ∈ present_letters, c ∈ guess)

/-- The constraint-update loop of `main` (lines 244-250): for each guess
position `i` with letter `c`, if `answer.chars().nth(i) == Some(c)` pin
slot `i` to `c`; otherwise, if the answer contains `c` anywhere, insert
`c` into the present-letter set. -/
def updateLoop (answer : List Char) :
    List (Nat × Char) → List Char → Finset Char → List Char × Finset Char
  | [], cp, pl => (cp, pl)
  | (i, c) :: rest, cp, pl =>
    if answer[i]? = some c then updateLoop answer rest (cp.set i c) pl
    else if c ∈ answer then updateLoop answer rest cp (insert c pl)
    else updateLoop answer rest cp pl

/-- One constraint update after an accepted non-winning guess. -/
def updateConstraints (answer guess : Word) (cp : List Char)
    (pl : Finset Char) : List Char × Finset Char :=
  updateLoop answer guess.enum cp pl

/-! ## SessionStats: `GameState` (src/main.rs lines 16-66) -/

/-- The persisted statistics record.  `used_words` models the
`HashMap<String, usize>` as an association list (the program only bumps
entries and later collects-and-sorts all of them). -/
structure GameState where
  total_rounds : Nat
  successful_games : Nat
  attempts : Nat
  used_words : List (Word × Nat)
deriving DecidableEq, Repr

/-- `GameState::new()`: all-zero counters, empty word tally. -/
def GameState.new : GameState :=
  { total_rounds := 0, successful_games := 0, attempts := 0, used_words := [] }

/-- `*self.used_words.entry(word).or_insert(0) += 1`. -/
def bump (w : Word) : List (Word × Nat) → List (Word × Nat)
  | [] => [(w, 1)]
  | (k, v) :: rest => if k = w then (k, v + 1) :: rest else (k, v) :: bump w rest

/-- `GameState::add_word`. -/
def GameState.add_word (s : GameState) (w : Word) : GameState :=
  { s with used_words := bump w s.used_words }

/-! ## RoundController: the attempt loop of `main` (lines 199-256)

The interactive loop is embedded as a recursion over the list of
candidate guesses the player types (each already trimmed and
upper-cased).  `none` models the loop still waiting for input; a `some`
result carries the outcome, the final state and the portion of the input
the loop never read. -/

/-- The outcome of one round. -/
inductive Outcome
  | Won (attempts_used : Nat)
  | Lost
deriving DecidableEq, Repr

/-- The mutable state of one round of `main`: the attempt counter, the
hard-mode constraint state, the session statistics, and (as a proof-side
observer of the `add_word` calls) the accepted guesses in order. -/
structure RoundState where
  attempts : Nat
  correct_positions : List Char
  present_letters : Finset Char
  stats : GameState
  accepted : List Word
deriving DecidableEq

/-- The state at the top of the attempt loop: `attempts = 0`,
`correct_positions = vec!['_'; 5]`, `present_letters` empty. -/
def initRound (stats : GameState) : RoundState :=
  { attempts := 0, correct_positions := List.replicate 5 '_',
    present_letters := ∅, stats := stats, accepted := [] }

/-- The state change of one accepted guess before the win test:
`attempts += 1`, `game_state.attempts += 1`, `game_state.add_word`. -/
def acceptGuess (st : RoundState) (g : Word) : RoundState :=
  { st with attempts := st.attempts + 1,
            stats := ({ st.stats with
                        attempts := st.stats.attempts + 1 }).add_word g,
            accepted := st.accepted ++ [g] }

/-- `while attempts < MAX_ATTEMPTS { ... }` (lines 208-256).  A guess not
in the acceptable set, or rejected by the hard-mode validator, is
`continue`: the next input is read with the state untouched.  An
accepted guess is scored, counted, and tested against the answer: a
match breaks out as `Won` (with `successful_games += 1`); otherwise the
hard-mode constraints are updated (only in hard mode) and the loop
continues until `attempts` reaches 6, which is `Lost`. -/
def roundLoop (acceptable : List Word) (answer : Word) (hard : Bool) :
    List Word → RoundState → Option (Outcome × RoundState × List Word)
  | [], st => if 6 ≤ st.attempts then some (.Lost, st, []) else none
  | g :: rest, st =>
    if 6 ≤ st.attempts then some (.Lost, st, g :: rest)
    else if g ∈ acceptable then
      if hard = true ∧
          is_valid_hard_mode_guess g st.correct_positions st.present_letters
            = false then
        roundLoop acceptable answer hard rest st
      else
        let st1 := acceptGuess st g
        if g = answer then
          some (.Won st1.attempts,
            { st1 with stats := { st1.stats with
                successful_games := st1.stats.successful_games + 1 } }, rest)
        else
          let cpl := updateConstraints answer g st1.correct_positions
            st1.present_letters
          roundLoop acceptable answer hard rest
            (if hard then
              { st1 with correct_positions := cpl.1, present_letters := cpl.2 }
            else st1)
    else roundLoop acceptable answer hard rest st

/-! ## `print_stats` word ranking (src/main.rs lines 59-64)

`sorted_words.sort_by(|a, b| b.1.cmp(a.1).then_with(|| a.0.cmp(b.0)))`
followed by `.take(5)`.  `String::cmp` is lexicographic on the character
sequence, which is exactly the `LinearOrder` on `List Char`. -/

/-- The comparator of `print_stats` as a "goes no later than" relation:
entry `a` precedes (or ties) entry `b` when `a`'s count is larger, or
the counts tie and `a`'s word is lexicographically no larger. -/
def statLe (a b : Word × Nat) : Prop :=
  b.2 < a.2 ∨ (a.2 = b.2 ∧ a.1 ≤ b.1)

instance : DecidableRel statLe := fun a b => by
  unfold statLe; infer_instance

/-- The sorted word tally of `print_stats`. -/
def sortWords (l : List (Word × Nat)) : List (Word × Nat) :=
  l.mergeSort fun a b => decide (statLe a b)

/-- The "Most frequently used words" listing: the top five entries. -/
def topWords (l : List (Word × Nat)) : List (Word × Nat) :=
  (sortWords l).take 5

/-! ## Persistence (src/main.rs lines 34-46 and 140-142)

`GameState::save` writes `serde_json::to_string_pretty(self)` to the
file; `GameState::load` opens the file, reads it, and parses it with
`serde_json::from_str`; `main` does
`GameState::load(state_file).unwrap_or_else(|_| GameState::new())`.
The JSON text produced and consumed by `serde_json` is not code of this
repository, so it is modelled at the level of JSON values. -/

/-- Modelled from the spec: the "human-readable structured format" of
the persisted record (spec sections 4.4 and 6) as a JSON value — the
serde_json serialization of the repository's `GameState`, with the text
layer elided. -/
inductive Json
  | num (n : Nat)
  | str (s : List Char)
  | obj (fields : List (List Char × Json))

/-- Modelled from the spec: the serde serialization of `GameState` — an
object with the four fields of the persisted record, the word tally as
an object of counts. -/
def GameState.toJson (s : GameState) : Json :=
  .obj [( "total_rounds".toList, .num s.total_rounds),
        ( "successful_games".toList, .num s.successful_games),
        ( "attempts".toList, .num s.attempts),
        ( "used_words".toList, .obj (s.used_words.map fun p => (p.1, .num p.2)))]

/-- Modelled from the spec: parse the entries of the `used_words`
object; any non-numeric value is a parse failure. -/
def parseWords : List (List Char × Json) → Option (List (Word × Nat))
  | [] => some []
  | (k, .num n) :: rest =>
    match parseWords rest with
    | some ws => some ((k, n) :: ws)
    | none => none
  | _ => none

/-- Modelled from the spec: the serde deserialization of `GameState`;
any value not of the record's shape is a parse failure. -/
def GameState.fromJson : Json → Option GameState
  | .obj [(k1, .num a), (k2, .num b), (k3, .num c), (k4, .obj entries)] =>
    if k1 = "total_rounds".toList ∧ k2 = "successful_games".toList ∧
        k3 = "attempts".toList ∧ k4 = "used_words".toList then
      match parseWords entries with
      | some ws => some { total_rounds := a, successful_games := b,
                          attempts := c, used_words := ws }
      | none => none
    else none
  | _ => none

/-- What the state file holds when `GameState::load` runs: no file at
the path, a file whose text is not JSON, or a JSON value. -/
inductive FileState
  | missing
  | unparsable
  | parsed (j : Json)

/-- `GameState::load`: `File::open`/`read_to_string` failure and
`serde_json::from_str` failure are the error branch (`?`); a parsed
record is `Ok`. -/
def GameState.load : FileState → Except Unit GameState
  | .missing => .error ()
  | .unparsable => .error ()
  | .parsed j =>
    match GameState.fromJson j with
    | some s => .ok s
    | none => .error ()

/-- Line 142 of `main`:
`GameState::load(state_file).unwrap_or_else(|_| GameState::new())`. -/
def loadOrNew (f : FileState) : GameState :=
  match GameState.load f with
  | .ok s => s
  | .error _ => GameState.new

/-- `GameState::save` followed by re-reading the same path: the file now
holds the serialized record. -/
def GameState.saveFile (s : GameState) : FileState :=
  .parsed s.toJson

/-! ## Lemmas: the concrete passes against the spec-level passes -/

/-- Pass 1 of the code computes the spec marks rendered as placeholder
characters and the spec answer copy rendered through the `'_'` sentinel. -/
theorem pass1_eq_spec : ∀ gs bs : List Char, gs.length = bs.length →
    pass1 gs bs =
      some ((specPass1 gs bs).1.map markChar, (specPass1 gs bs).2.map optChar)
  | [], [], _ => rfl
  | [], _ :: _, h => by simp at h
  | _ :: _, [], h => by simp at h
  | g :: gs, b :: bs, h => by
    have ih := pass1_eq_spec gs bs (by simpa using h)
    by_cases hbg : b = g
    · simp [pass1, specPass1, ih, hbg, markChar, optChar]
    · simp [pass1, specPass1, ih, hbg, markChar, optChar]

/-- A non-sentinel letter is in the rendered answer copy iff it is in
the spec answer copy. -/
theorem mem_map_optChar {g : Char} (hg : g ≠ '_') :
    ∀ ans : List (Option Char), g ∈ ans.map optChar ↔ some g ∈ ans := by
  intro ans
  induction ans with
  | nil => simp
  | cons a rest ih =>
    cases a with
    | none => simp [optChar, ih, hg]
    | some b => simp [optChar, ih]

/-- Consuming a non-sentinel letter commutes with rendering the answer
copy through the `'_'` sentinel. -/
theorem consume_map_optChar {g : Char} (hg : g ≠ '_') :
    ∀ ans : List (Option Char),
      consume g (ans.map optChar) = (specConsume g ans).map optChar := by
  intro ans
  induction ans with
  | nil => rfl
  | cons a rest ih =>
    cases a with
    | none => simp [optChar, consume, specConsume, hg, Ne.symm hg, ih]
    | some b =>
      by_cases hbg : b = g
      · simp [optChar, consume, specConsume, hbg]
      · simp [optChar, consume, specConsume, hbg, ih]

/-- Pass 2 of the code computes the spec verdicts rendered as
`G`/`Y`/`R`, provided the guess avoids the `'_'` sentinel. -/
theorem pass2_eq_spec :
    ∀ (gs : List Char) (ms : List Bool) (ans : List (Option Char)),
      (∀ x ∈ gs, x ≠ '_') →
      pass2 gs (ms.map markChar) (ans.map optChar) =
        (specPass2 gs ms ans).map renderVerdict
  | [], _, _, _ => rfl
  | _ :: _, [], _, _ => rfl
  | g :: gs, m :: ms, ans, h => by
    have hg : g ≠ '_' := h g (by simp)
    have htail : ∀ x ∈ gs, x ≠ '_' := fun x hx => h x (by simp [hx])
    cases m with
    | true =>
      simp only [List.map_cons, markChar, specPass2, pass2]
      simp [pass2_eq_spec gs ms ans htail, renderVerdict]
    | false =>
      simp only [List.map_cons, markChar, specPass2, pass2]
      by_cases hmem : some g ∈ ans
      · simp [hmem, (mem_map_optChar hg ans).2 hmem, consume_map_optChar hg,
          pass2_eq_spec gs ms (specConsume g ans) htail, renderVerdict]
      · have : g ∉ ans.map optChar := fun hc => hmem ((mem_map_optChar hg ans).1 hc)
        simp [hmem, this, pass2_eq_spec gs ms ans htail, renderVerdict]

/-- `provide_feedback` is the spec scoring algorithm rendered as
`G`/`Y`/`R`, for equal lengths and a sentinel-free guess. -/
theorem provide_feedback_eq_score (guess answer : List Char)
    (hlen : guess.length = answer.length) (hg : '_' ∉ guess) :
    provide_feedback guess answer
      = some ((score guess answer).map renderVerdict) := by
  have hne : ∀ x ∈ guess, x ≠ '_' := fun x hx he => hg (he ▸ hx)
  rw [provide_feedback, pass1_eq_spec guess answer hlen]
  simp only [score]
  rw [pass2_eq_spec guess (specPass1 guess answer).1 (specPass1 guess answer).2 hne]

/-- Pass 1 produces one mark per guess position (equal lengths). -/
theorem specPass1_fst_length : ∀ gs bs : List Char, gs.length = bs.length →
    (specPass1 gs bs).1.length = gs.length
  | [], [], _ => rfl
  | [], _ :: _, h => by simp at h
  | _ :: _, [], h => by simp at h
  | g :: gs, b :: bs, h => by
    have ih := specPass1_fst_length gs bs (by simpa using h)
    by_cases hbg : b = g <;> simp [specPass1, hbg, ih]

/-- A spec verdict is `Correct` exactly where the pass-1 mark is set. -/
theorem specPass2_correct_iff :
    ∀ (gs : List Char) (ms : List Bool) (ans : List (Option Char)) (i : Nat),
      i < gs.length → i < ms.length →
      ((specPass2 gs ms ans)[i]? = some .Correct ↔ ms[i]? = some true)
  | [], _, _, _, hi, _ => by simp at hi
  | _ :: _, [], _, _, _, hm => by simp at hm
  | g :: gs, m :: ms, ans, 0, _, _ => by
    cases m <;> by_cases hmem : some g ∈ ans <;> simp [specPass2, hmem]
  | g :: gs, m :: ms, ans, i + 1, hi, hm => by
    have hi2 : i < gs.length := by simpa using hi
    have hm2 : i < ms.length := by simpa using hm
    cases m with
    | true =>
      simpa [specPass2] using specPass2_correct_iff gs ms ans i hi2 hm2
    | false =>
      by_cases hmem : some g ∈ ans
      · simpa [specPass2, hmem] using
          specPass2_correct_iff gs ms (specConsume g ans) i hi2 hm2
      · simpa [specPass2, hmem] using specPass2_correct_iff gs ms ans i hi2 hm2

/-- The pass-1 mark at `i` is set exactly when guess and answer agree
at `i`. -/
theorem specPass1_mark_iff :
    ∀ (gs bs : List Char) (i : Nat), i < gs.length → gs.length = bs.length →
      ((specPass1 gs bs).1[i]? = some true ↔ gs[i]? = bs[i]?)
  | [], _, _, hi, _ => by simp at hi
  | _ :: _, [], _, _, h => by simp at h
  | g :: gs, b :: bs, 0, _, _ => by
    by_cases hbg : b = g
    · simp [specPass1, hbg]
    · simp [specPass1, hbg]
      exact fun e => hbg e.symm
  | g :: gs, b :: bs, i + 1, hi, h => by
    have hi2 : i < gs.length := by simpa using hi
    have h2 : gs.length = bs.length := by simpa using h
    by_cases hbg : b = g <;>
      simpa [specPass1, hbg] using specPass1_mark_iff gs bs i hi2 h2

/-- Consuming a present entry lowers its multiplicity by one. -/
theorem count_specConsume_pos {c : Char} :
    ∀ ans : List (Option Char), some c ∈ ans →
      (specConsume c ans).count (some c) + 1 = ans.count (some c) := by
  intro ans hmem
  induction ans with
  | nil => simp at hmem
  | cons a rest ih =>
    by_cases hac : a = some c
    · simp [specConsume, hac, List.count_cons]
    · have : some c ∈ rest := by
        rcases List.mem_cons.1 hmem with h | h
        · exact absurd h.symm hac
        · exact h
      simp [specConsume, hac, List.count_cons, ih this]

/-- Consuming a different letter leaves the multiplicity of `some c`
unchanged. -/
theorem count_specConsume_ne {c d : Char} (hne : d ≠ c) :
    ∀ ans : List (Option Char),
      (specConsume d ans).count (some c) = ans.count (some c) := by
  intro ans
  induction ans with
  | nil => rfl
  | cons a rest ih =>
    by_cases had : a = some d
    · have : (none : Option Char) ≠ some c := by simp
      simp [specConsume, had, List.count_cons, hne]
    · simp [specConsume, had, List.count_cons, ih]

/-- The marked (non-`Absent`) positions of a letter after spec pass 2:
the pass-1 matches plus as many displaced positions as the unconsumed
answer copy still offers. -/
theorem markedCount_specPass2 (c : Char) :
    ∀ (gs : List Char) (ms : List Bool) (ans : List (Option Char)),
      markedCount c gs (specPass2 gs ms ans) =
        corrCount c gs ms + min (openCount c gs ms) (ans.count (some c))
  | [], ms, ans => by cases ms <;> simp [markedCount, corrCount, openCount, specPass2]
  | g :: gs, [], ans => by simp [markedCount, corrCount, openCount, specPass2]
  | g :: gs, m :: ms, ans => by
    cases m with
    | true =>
      have ih := markedCount_specPass2 c gs ms ans
      by_cases hgc : g = c
      · simp [specPass2, markedCount, corrCount, openCount, hgc, ih]
        omega
      · simp [specPass2, markedCount, corrCount, openCount, hgc, ih]
    | false =>
      by_cases hmem : some g ∈ ans
      · have ih := markedCount_specPass2 c gs ms (specConsume g ans)
        by_cases hgc : g = c
        · subst hgc
          have hcnt := count_specConsume_pos ans hmem
          simp [specPass2, hmem, markedCount, corrCount, openCount, ih]
          omega
        · have hcnt := count_specConsume_ne hgc ans
          simp [specPass2, hmem, markedCount, corrCount, openCount, hgc, ih, hcnt]
      · have ih := markedCount_specPass2 c gs ms ans
        by_cases hgc : g = c
        · subst hgc
          have hcnt : ans.count (some g) = 0 := by
            exact List.count_eq_zero.2 hmem
          simp [specPass2, hmem, markedCount, corrCount, openCount, ih, hcnt]
        · simp [specPass2, hmem, markedCount, corrCount, openCount, hgc, ih]

/-- Pass-1 matches of a letter plus its unconsumed multiplicity equal
its multiplicity in the answer (equal lengths). -/
theorem corrCount_specPass1 (c : Char) :
    ∀ gs bs : List Char, gs.length = bs.length →
      corrCount c gs (specPass1 gs bs).1
          + ((specPass1 gs bs).2).count (some c)
        = bs.count c
  | [], [], _ => rfl
  | [], _ :: _, h => by simp at h
  | _ :: _, [], h => by simp at h
  | g :: gs, b :: bs, h => by
    have ih := corrCount_specPass1 c gs bs (by simpa using h)
    by_cases hbg : b = g
    · subst hbg
      by_cases hgc : b = c
      · simp [specPass1, corrCount, List.count_cons, hgc, ih]
        omega
      · simp [specPass1, corrCount, List.count_cons, hgc, ih]
    · by_cases hbc : b = c
      · subst hbc
        simp [specPass1, hbg, corrCount, List.count_cons,
          fun e : g = b => hbg e.symm, ih]
        omega
      · simp [specPass1, hbg, corrCount, List.count_cons, hbc, ih]

/-- Every position of a letter is either matched or open (equal
lengths). -/
theorem corr_open_eq_count (c : Char) :
    ∀ (gs : List Char) (ms : List Bool), gs.length = ms.length →
      corrCount c gs ms + openCount c gs ms = gs.count c
  | [], [], _ => rfl
  | [], _ :: _, h => by simp at h
  | _ :: _, [], h => by simp at h
  | g :: gs, m :: ms, h => by
    have ih := corr_open_eq_count c gs ms (by simpa using h)
    cases m <;> by_cases hgc : g = c <;>
      simp [corrCount, openCount, List.count_cons, hgc, ih] <;> omega

/-- The claim's duplicate-letter bound: a letter's marks (Correct or
Present) number exactly the smaller of its guess and answer
multiplicities. -/
theorem markedCount_score (c : Char) (guess answer : List Char)
    (h : guess.length = answer.length) :
    markedCount c guess (score guess answer)
      = min (guess.count c) (answer.count c) := by
  have h1 :=
    markedCount_specPass2 c guess (specPass1 guess answer).1 (specPass1 guess answer).2
  have h2 := corrCount_specPass1 c guess answer h
  have h3 := corr_open_eq_count c guess (specPass1 guess answer).1
    (specPass1_fst_length guess answer h).symm
  simp only [score] at *
  omega

/-! ## Claim C1 -/

/-- C1: for every guess and answer of the same length (words never
contain the `'_'` sentinel), `provide_feedback` renders exactly the
two-pass consumption algorithm `score` — whose pass 2 marks an unmarked
position `Present` iff its letter still occurs in the unconsumed
remainder of the answer copy, consuming the leftmost remaining
occurrence, and `Absent` otherwise; a position's verdict is `Correct`
iff guess and answer agree there; and each letter is marked `Correct` or
`Present` at exactly `min (guess multiplicity) (answer multiplicity)`
positions, hence at exactly `k` positions when the answer has `k` and
the guess has more than `k` occurrences. -/
theorem provide_feedback_two_pass (guess answer : List Char)
    (hlen : guess.length = answer.length) (hg : '_' ∉ guess) :
    provide_feedback guess answer
        = some ((score guess answer).map renderVerdict) ∧
    (∀ i : Nat, i < guess.length →
      ((score guess answer)[i]? = some .Correct ↔ guess[i]? = answer[i]?)) ∧
    (∀ c : Char,
      markedCount c guess (score guess answer)
        = min (guess.count c) (answer.count c)) ∧
    (∀ c : Char, answer.count c < guess.count c →
      markedCount c guess (score guess answer) = answer.count c) := by
  refine ⟨provide_feedback_eq_score guess answer hlen hg, ?_, ?_, ?_⟩
  · intro i hi
    have hm : i < (specPass1 guess answer).1.length := by
      rw [specPass1_fst_length guess answer hlen]; exact hi
    have h1 := specPass2_correct_iff guess (specPass1 guess answer).1
      (specPass1 guess answer).2 i hi hm
    have h2 := specPass1_mark_iff guess answer i hi hlen
    simpa [score] using h1.trans h2
  · exact fun c => markedCount_score c guess answer hlen
  · intro c hc
    have := markedCount_score c guess answer hlen
    omega

/-- Witness for C1 at the spec's duplicate-letter example:
guess `LLAMA` against answer `ALLOY`. -/
theorem provide_feedback_two_pass_witness :
    provide_feedback ['L','L','A','M','A'] ['A','L','L','O','Y']
        = some ((score ['L','L','A','M','A'] ['A','L','L','O','Y']).map
            renderVerdict) ∧
    (∀ i : Nat, i < (['L','L','A','M','A'] : List Char).length →
      ((score ['L','L','A','M','A'] ['A','L','L','O','Y'])[i]?
          = some .Correct ↔
        (['L','L','A','M','A'] : List Char)[i]?
          = (['A','L','L','O','Y'] : List Char)[i]?)) ∧
    (∀ c : Char,
      markedCount c ['L','L','A','M','A']
          (score ['L','L','A','M','A'] ['A','L','L','O','Y'])
        = min ((['L','L','A','M','A'] : List Char).count c)
            ((['A','L','L','O','Y'] : List Char).count c)) ∧
    (∀ c : Char,
      (['A','L','L','O','Y'] : List Char).count c
          < (['L','L','A','M','A'] : List Char).count c →
      markedCount c ['L','L','A','M','A']
          (score ['L','L','A','M','A'] ['A','L','L','O','Y'])
        = (['A','L','L','O','Y'] : List Char).count c) :=
  provide_feedback_two_pass ['L','L','A','M','A'] ['A','L','L','O','Y']
    (by decide) (by decide)

/-! ## Claim C6 -/

/-- Pass 1 hits the index panic exactly when the guess is longer than
the answer. -/
theorem pass1_eq_none_iff :
    ∀ gs bs : List Char, (pass1 gs bs = none ↔ bs.length < gs.length)
  | [], bs => by simp [pass1]
  | g :: gs, [] => by simp [pass1]
  | g :: gs, b :: bs => by
    have ih := pass1_eq_none_iff gs bs
    simp only [pass1]
    cases hp : pass1 gs bs with
    | none =>
      have : bs.length < gs.length := ih.1 hp
      simpa using Nat.succ_lt_succ this
    | some p =>
      have hnot : ¬ bs.length < gs.length := by
        rw [← ih, hp]; simp
      obtain ⟨fb, ans⟩ := p
      by_cases hbg : b = g <;> simp [hbg, hnot, Nat.succ_lt_succ_iff]

/-- C6 (amended): `provide_feedback` fails fast — reaches the
`answer_chars[i]` index panic — exactly when the guess is strictly
longer than the answer; in particular the panic is unreachable under
the equal-length precondition, but a strictly shorter guess returns a
(truncated) feedback value instead of failing. -/
theorem provide_feedback_fail_fast_iff (guess answer : List Char) :
    provide_feedback guess answer = none ↔ answer.length < guess.length := by
  rw [provide_feedback]
  cases hp : pass1 guess answer with
  | none =>
    have := (pass1_eq_none_iff guess answer).1 hp
    simpa using this
  | some p =>
    have hnot : ¬ answer.length < guess.length := by
      rw [← pass1_eq_none_iff guess answer, hp]; simp
    simpa using hnot

/-- C6 counterexample: the one-letter guess `A` against the two-letter
answer `AB` has mismatched lengths, yet `provide_feedback` returns the
feedback `G` instead of failing fast. -/
theorem provide_feedback_length_mismatch_returns :
    provide_feedback ['A'] ['A', 'B'] = some ['G'] ∧
      (['A'] : List Char).length ≠ (['A', 'B'] : List Char).length := by
  exact ⟨rfl, by decide⟩

/-! ## Claim C4 -/

/-- The positional pass of the validator fails exactly when some pinned
slot disagrees with the guess letter at that position. -/
theorem zip_all_false_iff :
    ∀ gs cp : List Char, gs.length = cp.length →
      ((((gs.zip cp).all fun p => p.2 == '_' || p.2 == p.1) = false) ↔
        ∃ (i : Nat) (d : Char), cp[i]? = some d ∧ d ≠ '_' ∧ gs[i]? ≠ some d)
  | [], [], _ => by simp
  | [], _ :: _, h => by simp at h
  | _ :: _, [], h => by simp at h
  | g :: gs, s :: ss, h => by
    have ih := zip_all_false_iff gs ss (by simpa using h)
    simp only [List.zip_cons_cons, List.all_cons, Bool.and_eq_false_iff,
      Bool.or_eq_false_iff, beq_eq_false_iff_ne, ne_eq]
    rw [ih]
    constructor
    · rintro (⟨h1, h2⟩ | ⟨i, d, h1, h2, h3⟩)
      · refine ⟨0, s, by simp, h1, ?_⟩
        simpa using fun e => h2 e.symm
      · exact ⟨i + 1, d, by simpa using h1, h2, by simpa using h3⟩
    · rintro ⟨i, d, h1, h2, h3⟩
      cases i with
      | zero =>
        left
        have hds : d = s := by simpa using h1.symm
        subst hds
        refine ⟨h2, ?_⟩
        intro e
        exact h3 (by simpa using e.symm)
      | succ i =>
        right
        exact ⟨i, d, by simpa using h1, h2, by simpa using h3⟩

/-- The present-letter pass of the validator fails exactly when some
present letter occurs nowhere in the guess. -/
theorem present_all_false_iff (gs : List Char) (pl : Finset Char) :
    (decide (∀ c ∈ pl, c ∈ gs) = false) ↔ ∃ c ∈ pl, c ∉ gs := by
  simp [decide_eq_false_iff_not]

/-- C4: `is_valid_hard_mode_guess` returns `false` iff some pinned slot
holds a letter different from the guess letter at that position, or
some present letter occurs nowhere in the guess (an occurrence check);
otherwise it returns `true`.  The positional slots and the guess have
the word length (5 throughout the program). -/
theorem is_valid_hard_mode_guess_false_iff (guess cp : List Char)
    (pl : Finset Char) (hlen : guess.length = cp.length) :
    is_valid_hard_mode_guess guess cp pl = false ↔
      ((∃ (i : Nat) (d : Char), cp[i]? = some d ∧ d ≠ '_' ∧ guess[i]? ≠ some d) ∨
        ∃ c ∈ pl, c ∉ guess) := by
  rw [is_valid_hard_mode_guess, Bool.and_eq_false_iff,
    zip_all_false_iff guess cp hlen, present_all_false_iff]

/-- Witness for C4: slot 0 pinned to `A`, present letter `Z`, guess
`ABCDE`. -/
theorem is_valid_hard_mode_guess_false_iff_witness :
    is_valid_hard_mode_guess ['A','B','C','D','E'] ['A','_','_','_','_']
        {'Z'} = false ↔
      ((∃ (i : Nat) (d : Char), (['A','_','_','_','_'] : List Char)[i]? = some d ∧ d ≠ '_' ∧
          (['A','B','C','D','E'] : List Char)[i]? ≠ some d) ∨
        ∃ c ∈ ({'Z'} : Finset Char), c ∉ (['A','B','C','D','E'] : List Char)) :=
  is_valid_hard_mode_guess_false_iff ['A','B','C','D','E']
    ['A','_','_','_','_'] {'Z'} (by decide)

/-! ## Claim C5 -/

/-- C5: a rejected guess — not in the acceptable set, or refused by the
hard-mode validator — consumes no attempt and changes nothing: the loop
proceeds on the remaining input from the identical state (the same
attempt counter, pinned positions, present letters, and `GameState`
counters `total_rounds`, `successful_games`, `attempts`, `used_words`),
so the round keeps accepting guesses. -/
theorem rejected_guess_consumes_nothing (acceptable : List Word)
    (answer g : Word) (hard : Bool) (rest : List Word) (st : RoundState)
    (hlt : st.attempts < 6)
    (hrej : g ∉ acceptable ∨
      (hard = true ∧
        is_valid_hard_mode_guess g st.correct_positions st.present_letters
          = false)) :
    roundLoop acceptable answer hard (g :: rest) st
      = roundLoop acceptable answer hard rest st := by
  rcases hrej with hna | hinv
  · simp [roundLoop, Nat.not_le.2 hlt, hna]
  · by_cases hmem : g ∈ acceptable <;>
      simp [roundLoop, Nat.not_le.2 hlt, hmem, hinv]

/-- Witness for C5: the non-dictionary guess `WRONG` against the
one-word acceptable list `CRANE`, from the fresh round state. -/
theorem rejected_guess_consumes_nothing_witness :
    roundLoop [['C','R','A','N','E']] ['C','R','A','N','E'] false
        [['W','R','O','N','G']] (initRound GameState.new)
      = roundLoop [['C','R','A','N','E']] ['C','R','A','N','E'] false []
          (initRound GameState.new) :=
  rejected_guess_consumes_nothing [['C','R','A','N','E']] ['C','R','A','N','E']
    ['W','R','O','N','G'] false [] (initRound GameState.new) (by decide)
    (Or.inl (by decide))

/-! ## Claim C2 -/

/-- The accepted-guess bookkeeping of one accepted guess. -/
theorem acceptGuess_accepted (st : RoundState) (g : Word) :
    (acceptGuess st g).accepted = st.accepted ++ [g] ∧
      (acceptGuess st g).attempts = st.attempts + 1 := by
  simp [acceptGuess]

/-- The shape of every completed run of the attempt loop: the loop
consumes a prefix of the input; the accepted guesses extend the trace by
`newAcc`, one attempt each; a `Lost` run reaches 6 attempts (never more,
starting below 6) with no accepted guess equal to the answer, and a
`Won` run ends at its attempt count, within 6, with the answer as its
last accepted guess and no earlier accepted guess equal to it. -/
theorem roundLoop_spec (acceptable : List Word) (answer : Word) (hard : Bool) :
    ∀ (inputs : List Word) (st : RoundState) (out : Outcome)
      (stF : RoundState) (rest : List Word),
      roundLoop acceptable answer hard inputs st = some (out, stF, rest) →
      ∃ pre newAcc,
        inputs = pre ++ rest ∧
        stF.accepted = st.accepted ++ newAcc ∧
        stF.attempts = st.attempts + newAcc.length ∧
        ((out = .Lost ∧ 6 ≤ stF.attempts ∧ stF.attempts ≤ max st.attempts 6 ∧
            answer ∉ newAcc) ∨
          (out = .Won stF.attempts ∧ stF.attempts ≤ 6 ∧
            ∃ pre2, newAcc = pre2 ++ [answer] ∧ answer ∉ pre2))
  | [], st, out, stF, rest => by
    intro h
    by_cases h6 : 6 ≤ st.attempts
    · rw [roundLoop, if_pos h6] at h
      obtain ⟨h1, h2, h3⟩ : Outcome.Lost = out ∧ st = stF ∧ ([] : List Word) = rest := by
        simpa [Prod.ext_iff] using h
      subst h1; subst h2; subst h3
      exact ⟨[], [], by simp, by simp, by simp,
        Or.inl ⟨rfl, h6, Nat.le_max_left _ _, by simp⟩⟩
    · rw [roundLoop, if_neg h6] at h
      exact absurd h (by simp)
  | g :: inputs2, st, out, stF, rest => by
    intro h
    by_cases h6 : 6 ≤ st.attempts
    · rw [roundLoop, if_pos h6] at h
      obtain ⟨h1, h2, h3⟩ : Outcome.Lost = out ∧ st = stF ∧ g :: inputs2 = rest := by
        simpa [Prod.ext_iff] using h
      subst h1; subst h2; subst h3
      exact ⟨[], [], by simp, by simp, by simp,
        Or.inl ⟨rfl, h6, Nat.le_max_left _ _, by simp⟩⟩
    · rw [roundLoop, if_neg h6] at h
      by_cases hmem : g ∈ acceptable
      · rw [if_pos hmem] at h
        by_cases hrej : hard = true ∧
            is_valid_hard_mode_guess g st.correct_positions st.present_letters
              = false
        · rw [if_pos hrej] at h
          obtain ⟨pre, newAcc, e1, e2, e3, hout⟩ :=
            roundLoop_spec acceptable answer hard inputs2 st out stF rest h
          exact ⟨g :: pre, newAcc, by simp [e1], e2, e3, hout⟩
        · rw [if_neg hrej] at h
          simp only at h
          by_cases hwin : g = answer
          · rw [if_pos hwin] at h
            obtain ⟨h1, h2, h3⟩ : Outcome.Won (acceptGuess st g).attempts = out ∧
                _ = stF ∧ inputs2 = rest := by
              simpa [Prod.ext_iff] using h
            subst h1; subst h2; subst h3
            refine ⟨[g], [g], by simp, by simp [acceptGuess], by simp [acceptGuess], ?_⟩
            right
            refine ⟨by simp [acceptGuess], ?_, [], by simp [hwin], by simp⟩
            simp [acceptGuess]
            omega
          · rw [if_neg hwin] at h
            obtain ⟨pre, newAcc, e1, e2, e3, hout⟩ :=
              roundLoop_spec acceptable answer hard inputs2 _ out stF rest h
            have hacc : (if hard then
                { acceptGuess st g with
                  correct_positions := (updateConstraints answer g
                    (acceptGuess st g).correct_positions
                    (acceptGuess st g).present_letters).1,
                  present_letters := (updateConstraints answer g
                    (acceptGuess st g).correct_positions
                    (acceptGuess st g).present_letters).2 }
              else acceptGuess st g).accepted = st.accepted ++ [g] := by
              by_cases hh : hard <;> simp [hh, acceptGuess]
            have hatt : (if hard then
                { acceptGuess st g with
                  correct_positions := (updateConstraints answer g
                    (acceptGuess st g).correct_positions
                    (acceptGuess st g).present_letters).1,
                  present_letters := (updateConstraints answer g
                    (acceptGuess st g).correct_positions
                    (acceptGuess st g).present_letters).2 }
              else acceptGuess st g).attempts = st.attempts + 1 := by
              by_cases hh : hard <;> simp [hh, acceptGuess]
            refine ⟨g :: pre, g :: newAcc, by simp [e1], ?_, ?_, ?_⟩
            · rw [e2, hacc]; simp
            · rw [e3, hatt]; simp; omega
            · rcases hout with ⟨ho1, ho2, ho3, ho4⟩ | ⟨ho1, ho2, pre2, ho3, ho4⟩
              · refine Or.inl ⟨ho1, ho2, ?_, ?_⟩
                · rw [hatt] at ho3
                  have : st.attempts + 1 ≤ 6 := by omega
                  omega
                · simp [ho4]
                  exact fun e => hwin e.symm
              · refine Or.inr ⟨ho1, ho2, g :: pre2, by simp [ho3], ?_⟩
                simp [ho4]
                exact fun e => hwin e.symm
      · rw [if_neg hmem] at h
        obtain ⟨pre, newAcc, e1, e2, e3, hout⟩ :=
          roundLoop_spec acceptable answer hard inputs2 st out stF rest h
        exact ⟨g :: pre, newAcc, by simp [e1], e2, e3, hout⟩

/-- C2: from the fresh round state, a completed attempt loop has exactly
two outcomes: `Lost` after exactly 6 accepted guesses none of which is
the answer, or `Won k` with `1 ≤ k ≤ 6` where the `k`-th accepted guess
is the answer, no earlier accepted guess is, and the loop stops reading
input (`rest` is handed back unread). -/
theorem round_termination (acceptable : List Word) (answer : Word)
    (hard : Bool) (stats : GameState) (inputs : List Word) (out : Outcome)
    (stF : RoundState) (rest : List Word)
    (h : roundLoop acceptable answer hard inputs (initRound stats)
        = some (out, stF, rest)) :
    (∃ pre, inputs = pre ++ rest) ∧
    ((out = Outcome.Lost ∧ stF.attempts = 6 ∧ stF.accepted.length = 6 ∧
        answer ∉ stF.accepted) ∨
      (∃ k, out = Outcome.Won k ∧ 1 ≤ k ∧ k ≤ 6 ∧ stF.attempts = k ∧
        stF.accepted.length = k ∧
        ∃ pre2, stF.accepted = pre2 ++ [answer] ∧ answer ∉ pre2)) := by
  obtain ⟨pre, newAcc, e1, e2, e3, hout⟩ :=
    roundLoop_spec acceptable answer hard inputs (initRound stats) out stF rest h
  refine ⟨⟨pre, e1⟩, ?_⟩
  have e2 : stF.accepted = newAcc := by simpa [initRound] using e2
  have e3 : stF.attempts = newAcc.length := by simpa [initRound] using e3
  rcases hout with ⟨h1, h2, h3, h4⟩ | ⟨h1, h2, pre2, h3, h4⟩
  · have hmax : max (initRound stats).attempts 6 = 6 := by simp [initRound]
    rw [hmax] at h3
    refine Or.inl ⟨h1, by omega, ?_, ?_⟩
    · rw [e2]; omega
    · rw [e2]; exact h4
  · refine Or.inr ⟨stF.attempts, h1, ?_, h2, rfl, ?_, pre2, ?_, h4⟩
    · have : newAcc.length = pre2.length + 1 := by simp [h3]
      omega
    · rw [e2]; omega
    · rw [e2]; exact h3

/-- A five-letter word for concrete runs. -/
def craneWord : Word := ['C','R','A','N','E']

/-- The state after the fresh round wins on its first guess. -/
def wonState : RoundState :=
  { attempts := 1, correct_positions := List.replicate 5 '_',
    present_letters := ∅,
    stats := { total_rounds := 0, successful_games := 1, attempts := 1,
               used_words := [(craneWord, 1)] },
    accepted := [craneWord] }

/-- Witness for C2: guessing the answer immediately wins at attempt 1. -/
theorem round_termination_witness :
    (∃ pre, [craneWord] = pre ++ ([] : List Word)) ∧
    ((Outcome.Won 1 = Outcome.Lost ∧ wonState.attempts = 6 ∧
        wonState.accepted.length = 6 ∧ craneWord ∉ wonState.accepted) ∨
      (∃ k, Outcome.Won 1 = Outcome.Won k ∧ 1 ≤ k ∧ k ≤ 6 ∧
        wonState.attempts = k ∧ wonState.accepted.length = k ∧
        ∃ pre2, wonState.accepted = pre2 ++ [craneWord] ∧ craneWord ∉ pre2)) :=
  round_termination [craneWord] craneWord false GameState.new [craneWord]
    (Outcome.Won 1) wonState [] (by rfl)

/-! ## Claim C3 -/

/-- The present-letter set after the update loop: the prior set plus
every enumerated guess letter that is not the answer letter at its own
position but occurs somewhere in the answer — with no consumption
bookkeeping, so verdicts play no role. -/
theorem updateLoop_snd (answer : List Char) :
    ∀ (l : List (Nat × Char)) (cp : List Char) (pl : Finset Char),
      (updateLoop answer l cp pl).2 =
        pl ∪ ((l.filter fun p =>
          decide (answer[p.1]? ≠ some p.2 ∧ p.2 ∈ answer)).map
            Prod.snd).toFinset
  | [], cp, pl => by simp [updateLoop]
  | (i, c) :: rest, cp, pl => by
    by_cases h1 : answer[i]? = some c
    · simp [updateLoop, h1, updateLoop_snd answer rest]
    · by_cases h2 : c ∈ answer
      · simp only [updateLoop, if_neg h1, if_pos h2,
          updateLoop_snd answer rest, List.filter_cons]
        simp [h1, h2, Finset.union_insert]
      · simp [updateLoop, h1, h2, updateLoop_snd answer rest]

/-- C3 (amended): after an accepted non-winning guess in hard mode, the
present-letter set gains exactly the guess letters at positions where
the guess letter differs from the answer letter there but occurs
somewhere in the answer — an occurrence test with no consumption, which
can include letters whose verdict at that position is `Absent`. -/
theorem present_letters_update (answer guess : Word) (cp : List Char)
    (pl : Finset Char) :
    (updateConstraints answer guess cp pl).2 =
      pl ∪ ((guess.enum.filter fun p =>
        decide (answer[p.1]? ≠ some p.2 ∧ p.2 ∈ answer)).map
          Prod.snd).toFinset :=
  updateLoop_snd answer guess.enum cp pl

/-- C3 counterexample: in the hard-mode round with answer `ABCDE`,
the accepted guess `AAXYZ` scores `[Correct, Absent, Absent, Absent,
Absent]` — no position has verdict `Present` — yet the present-letter
set afterwards is `{A}`, not the empty set the claim demands: the
duplicate `A`, consumed by the `Correct` match, is added anyway. -/
theorem present_letters_gains_absent_letter :
    (roundLoop [['A','A','X','Y','Z'], ['A','B','C','D','E']]
        ['A','B','C','D','E'] true
        [['A','A','X','Y','Z'], ['A','B','C','D','E']]
        (initRound GameState.new)).map
        (fun r => r.2.1.present_letters) = some {'A'} ∧
    score ['A','A','X','Y','Z'] ['A','B','C','D','E']
      = [.Correct, .Absent, .Absent, .Absent, .Absent] := by
  constructor
  · decide
  · decide

/-! ## Claim C10 -/

/-- Soundness of the hard-mode constraint state for a given answer:
every pinned slot holds exactly the answer's letter at that position,
and every present letter occurs somewhere in the answer. -/
def SoundConstraints (answer : Word) (cp : List Char) (pl : Finset Char) : Prop :=
  (∀ (i : Nat) (d : Char), cp[i]? = some d → d ≠ '_' → answer[i]? = some d) ∧
    ∀ c ∈ pl, c ∈ answer

/-- The fresh constraint state is sound: nothing is pinned, nothing is
present. -/
theorem soundConstraints_init (answer : Word) :
    SoundConstraints answer (List.replicate 5 '_') ∅ := by
  constructor
  · intro i d hd hne
    exact absurd (List.eq_of_mem_replicate (List.getElem?_mem hd)) hne
  · simp

/-- The constraint-update loop preserves soundness: a slot is only
pinned to the letter the answer holds there, and a letter is only
inserted when the answer contains it. -/
theorem updateLoop_sound (answer : Word) :
    ∀ (l : List (Nat × Char)) (cp : List Char) (pl : Finset Char),
      SoundConstraints answer cp pl →
      SoundConstraints answer (updateLoop answer l cp pl).1
        (updateLoop answer l cp pl).2
  | [], cp, pl, hs => by simpa [updateLoop] using hs
  | (i, c) :: rest, cp, pl, hs => by
    by_cases h1 : answer[i]? = some c
    · rw [updateLoop, if_pos h1]
      apply updateLoop_sound answer rest
      refine ⟨?_, hs.2⟩
      intro j d hd hne
      by_cases hij : i = j
      · subst hij
        rcases Nat.lt_or_ge i cp.length with hlt | hge
        · rw [List.getElem?_set_self hlt] at hd
          exact hd ▸ h1
        · have hnone : (cp.set i c)[i]? = none := by
            rw [List.getElem?_eq_none]
            simpa using hge
          rw [hnone] at hd
          exact absurd hd (by simp)
      · rw [List.getElem?_set_ne hij] at hd
        exact hs.1 j d hd hne
    · by_cases h2 : c ∈ answer
      · rw [updateLoop, if_neg h1, if_pos h2]
        apply updateLoop_sound answer rest
        refine ⟨hs.1, ?_⟩
        intro x hx
        rcases Finset.mem_insert.1 hx with he | hm
        · exact he ▸ h2
        · exact hs.2 x hm
      · rw [updateLoop, if_neg h1, if_neg h2]
        exact updateLoop_sound answer rest cp pl hs

/-- A sound pin vector never disagrees with the answer positionally. -/
theorem zip_all_of_pointwise :
    ∀ bs cp : List Char,
      (∀ (i : Nat) (d : Char), cp[i]? = some d → d ≠ '_' → bs[i]? = some d) →
      ((bs.zip cp).all fun p => p.2 == '_' || p.2 == p.1) = true
  | _ :: _, [], _ => by simp
  | [], _, _ => by simp
  | b :: bs, s :: ss, h => by
    simp only [List.zip_cons_cons, List.all_cons, Bool.or_eq_true, beq_iff_eq,
      Bool.and_eq_true]
    constructor
    · by_cases hsb : s = '_'
      · exact Or.inl hsb
      · right
        have := h 0 s (by simp) hsb
        simpa using this.symm
    · apply zip_all_of_pointwise bs ss
      intro i d hd hne
      have := h (i + 1) d (by simpa using hd) hne
      simpa using this

/-- In any sound constraint state the answer itself passes the
hard-mode validator. -/
theorem answer_valid_of_sound (answer : Word) (cp : List Char)
    (pl : Finset Char) (hs : SoundConstraints answer cp pl) :
    is_valid_hard_mode_guess answer cp pl = true := by
  rw [is_valid_hard_mode_guess, Bool.and_eq_true]
  exact ⟨zip_all_of_pointwise answer cp hs.1, by simpa using hs.2⟩

/-- The attempt loop preserves constraint soundness from any state to
its final state. -/
theorem roundLoop_sound (acceptable : List Word) (answer : Word) (hard : Bool) :
    ∀ (inputs : List Word) (st : RoundState) (out : Outcome)
      (stF : RoundState) (rest : List Word),
      SoundConstraints answer st.correct_positions st.present_letters →
      roundLoop acceptable answer hard inputs st = some (out, stF, rest) →
      SoundConstraints answer stF.correct_positions stF.present_letters
  | [], st, out, stF, rest => by
    intro hs h
    by_cases h6 : 6 ≤ st.attempts
    · rw [roundLoop, if_pos h6] at h
      obtain ⟨h1, h2, h3⟩ : Outcome.Lost = out ∧ st = stF ∧ ([] : List Word) = rest := by
        simpa [Prod.ext_iff] using h
      exact h2 ▸ hs
    · rw [roundLoop, if_neg h6] at h
      exact absurd h (by simp)
  | g :: inputs2, st, out, stF, rest => by
    intro hs h
    by_cases h6 : 6 ≤ st.attempts
    · rw [roundLoop, if_pos h6] at h
      obtain ⟨h1, h2, h3⟩ : Outcome.Lost = out ∧ st = stF ∧ g :: inputs2 = rest := by
        simpa [Prod.ext_iff] using h
      exact h2 ▸ hs
    · rw [roundLoop, if_neg h6] at h
      by_cases hmem : g ∈ acceptable
      · rw [if_pos hmem] at h
        by_cases hrej : hard = true ∧
            is_valid_hard_mode_guess g st.correct_positions st.present_letters
              = false
        · rw [if_pos hrej] at h
          exact roundLoop_sound acceptable answer hard inputs2 st out stF rest hs h
        · rw [if_neg hrej] at h
          simp only at h
          by_cases hwin : g = answer
          · rw [if_pos hwin] at h
            obtain ⟨h1, h2, h3⟩ : Outcome.Won (acceptGuess st g).attempts = out ∧
                _ = stF ∧ inputs2 = rest := by
              simpa [Prod.ext_iff] using h
            rw [← h2]
            simpa [acceptGuess] using hs
          · rw [if_neg hwin] at h
            refine roundLoop_sound acceptable answer hard inputs2 _ out stF rest ?_ h
            by_cases hh : hard
            · simp only [hh, if_pos]
              simpa [acceptGuess, updateConstraints] using
                updateLoop_sound answer g.enum st.correct_positions
                  st.present_letters hs
            · simpa [hh, acceptGuess] using hs
      · rw [if_neg hmem] at h
        exact roundLoop_sound acceptable answer hard inputs2 st out stF rest hs h

/-- C10: in a hard-mode round the constraint state is always sound for
the hidden answer — the fresh state is sound, each constraint update
preserves soundness, and the attempt loop carries it to its final
state — and in any sound state the answer itself passes
`is_valid_hard_mode_guess`, so hard mode never excludes the answer. -/
theorem hard_mode_never_unwinnable (answer : Word) :
    SoundConstraints answer (initRound GameState.new).correct_positions
        (initRound GameState.new).present_letters ∧
    (∀ (guess : Word) (cp : List Char) (pl : Finset Char),
      SoundConstraints answer cp pl →
      SoundConstraints answer (updateConstraints answer guess cp pl).1
        (updateConstraints answer guess cp pl).2) ∧
    (∀ (cp : List Char) (pl : Finset Char),
      SoundConstraints answer cp pl →
      is_valid_hard_mode_guess answer cp pl = true) ∧
    (∀ (acceptable : List Word) (hard : Bool) (inputs : List Word)
      (st : RoundState) (out : Outcome) (stF : RoundState) (rest : List Word),
      SoundConstraints answer st.correct_positions st.present_letters →
      roundLoop acceptable answer hard inputs st = some (out, stF, rest) →
      SoundConstraints answer stF.correct_positions stF.present_letters) := by
  refine ⟨soundConstraints_init answer, ?_, ?_, ?_⟩
  · intro guess cp pl hs
    exact updateLoop_sound answer guess.enum cp pl hs
  · exact fun cp pl hs => answer_valid_of_sound answer cp pl hs
  · exact fun acceptable hard inputs st out stF rest hs h =>
      roundLoop_sound acceptable answer hard inputs st out stF rest hs h

/-! ## Claim C7 -/

/-- C7: loading from a missing file, a file whose text does not parse,
or a JSON value not of the record's shape never fails fatally — the
`unwrap_or_else` of `main` yields the fresh `GameState` with all-zero
counters and an empty word tally. -/
theorem load_missing_or_corrupt_is_fresh (f : FileState)
    (h : f = FileState.missing ∨ f = FileState.unparsable ∨
      ∃ j, f = FileState.parsed j ∧ GameState.fromJson j = none) :
    loadOrNew f = GameState.new ∧
    (loadOrNew f).total_rounds = 0 ∧ (loadOrNew f).successful_games = 0 ∧
    (loadOrNew f).attempts = 0 ∧ (loadOrNew f).used_words = [] := by
  have he : loadOrNew f = GameState.new := by
    rcases h with h | h | ⟨j, hj, hp⟩
    · subst h; rfl
    · subst h; rfl
    · subst hj; simp [loadOrNew, GameState.load, hp]
  refine ⟨he, ?_, ?_, ?_, ?_⟩ <;> rw [he] <;> rfl

/-- Witness for C7 at the missing state file. -/
theorem load_missing_or_corrupt_is_fresh_witness :
    loadOrNew FileState.missing = GameState.new ∧
    (loadOrNew FileState.missing).total_rounds = 0 ∧
    (loadOrNew FileState.missing).successful_games = 0 ∧
    (loadOrNew FileState.missing).attempts = 0 ∧
    (loadOrNew FileState.missing).used_words = [] :=
  load_missing_or_corrupt_is_fresh FileState.missing (Or.inl rfl)

/-! ## Claim C8 -/

/-- The word-tally object round-trips entry by entry. -/
theorem parseWords_roundtrip : ∀ ws : List (Word × Nat),
    parseWords (ws.map fun p => (p.1, Json.num p.2)) = some ws
  | [] => rfl
  | (k, v) :: rest => by
    simp [parseWords, parseWords_roundtrip rest]

/-- C8: saving a `GameState` and loading the resulting file reproduces
the same record — identical `total_rounds`, `successful_games`,
`attempts` and `used_words` counts. -/
theorem save_load_roundtrip (s : GameState) :
    GameState.load (GameState.saveFile s) = Except.ok s := by
  have hp : GameState.fromJson (GameState.toJson s) = some s := by
    rw [GameState.toJson, GameState.fromJson]
    simp [parseWords_roundtrip]
  simp [GameState.saveFile, GameState.load, hp]

/-! ## Claim C9 -/

/-- The ranking order is transitive. -/
theorem statLe_trans {a b c : Word × Nat} (h1 : statLe a b) (h2 : statLe b c) :
    statLe a c := by
  rcases h1 with h1 | ⟨he1, hw1⟩ <;> rcases h2 with h2 | ⟨he2, hw2⟩
  · exact Or.inl (h2.trans h1)
  · exact Or.inl (he2 ▸ h1)
  · exact Or.inl (he1.symm ▸ h2)
  · exact Or.inr ⟨he1.trans he2, hw1.trans hw2⟩

/-- The ranking order is total. -/
theorem statLe_total (a b : Word × Nat) : statLe a b ∨ statLe b a := by
  rcases lt_trichotomy a.2 b.2 with h | h | h
  · exact Or.inr (Or.inl h)
  · rcases le_total a.1 b.1 with hw | hw
    · exact Or.inl (Or.inr ⟨h, hw⟩)
    · exact Or.inr (Or.inr ⟨h.symm, hw⟩)
  · exact Or.inl (Or.inl h)

/-- The ranking order is antisymmetric: equal counts and equal words
force equal entries. -/
theorem statLe_antisymm {a b : Word × Nat} (h1 : statLe a b)
    (h2 : statLe b a) : a = b := by
  rcases h1 with h1 | ⟨he1, hw1⟩ <;> rcases h2 with h2 | ⟨he2, hw2⟩
  · exact absurd h1 (lt_asymm h2)
  · exact absurd (he2 ▸ h1) (lt_irrefl _)
  · exact absurd (he1 ▸ h2) (lt_irrefl _)
  · exact Prod.ext (le_antisymm hw1 hw2) he1

/-- The sorted tally is ordered by the ranking order. -/
theorem sortWords_sorted (l : List (Word × Nat)) :
    (sortWords l).Pairwise statLe := by
  have htrans : ∀ a b c : Word × Nat, decide (statLe a b) →
      decide (statLe b c) → decide (statLe a c) := by
    intro a b c h1 h2
    simp only [decide_eq_true_eq] at *
    exact statLe_trans h1 h2
  have htotal : ∀ a b : Word × Nat,
      decide (statLe a b) || decide (statLe b a) := by
    intro a b
    rcases statLe_total a b with h | h <;> simp [h]
  have h := @List.sorted_mergeSort (Word × Nat)
    (fun a b => decide (statLe a b)) htrans htotal l
  exact h.imp fun hab => by simpa using hab

/-- The sorted tally is a permutation of the tally. -/
theorem sortWords_perm (l : List (Word × Nat)) : (sortWords l).Perm l :=
  List.mergeSort_perm l _

/-- C9: the "most frequently used words" listing is deterministic — any
two orderings of the same tally entries (the hash map iterates in
arbitrary order) sort to the same list — the sort is by the ranking
order `statLe`, which is descending occurrence count with ties broken by
ascending lexicographic word order, and the listing keeps at most the
top 5 entries. -/
theorem top_words_deterministic_ranking :
    (∀ l1 l2 : List (Word × Nat), l1.Perm l2 → sortWords l1 = sortWords l2) ∧
    (∀ l : List (Word × Nat), (sortWords l).Pairwise statLe) ∧
    (∀ l : List (Word × Nat), (sortWords l).Perm l) ∧
    (∀ a b : Word × Nat, statLe a b ↔
      (b.2 < a.2 ∨ (a.2 = b.2 ∧ a.1 ≤ b.1))) ∧
    (∀ l : List (Word × Nat),
      topWords l = (sortWords l).take 5 ∧ (topWords l).length ≤ 5) := by
  refine ⟨?_, sortWords_sorted, sortWords_perm, fun a b => Iff.rfl, ?_⟩
  · intro l1 l2 h
    haveI : IsAntisymm (Word × Nat) statLe := ⟨fun a b => statLe_antisymm⟩
    exact List.eq_of_perm_of_sorted
      ((sortWords_perm l1).trans (h.trans (sortWords_perm l2).symm))
      (sortWords_sorted l1) (sortWords_sorted l2)
  · intro l
    refine ⟨rfl, ?_⟩
    simp [topWords]
